import Mathlib

/-!
# Verification of the odoo-depends dependency-analysis core

A shallow embedding, in Lean 4, of the dependency-graph construction and
analysis engine of the `odoo-depends` repository
(`odoo_depends/analyzer.py` and `odoo_depends/upgrade_analyzer.py`),
together with proofs about the embedded definitions.

The embedding follows the Python source closely:

* `OdooModule` mirrors the `OdooModule` dataclass.
* The module mapping (`self.modules`, a dict keyed by `module.name`) is
  modelled as a `List OdooModule`; dict-key uniqueness, where needed, is an
  explicit `Nodup` hypothesis.
* The networkx `DiGraph` built by `build_dependency_graph` is modelled by
  its node list (`graphNodes`) and its edge list (`graphEdges`); since
  `DiGraph` is a simple directed graph, repeated insertions collapse, which
  the embedding reflects with an order-preserving "insert if absent" fold.
* networkx graph algorithms used by the source (`descendants`, `ancestors`,
  `topological_sort`, `simple_cycles`) are embedded as executable functions
  with the same extensional behaviour: reachability by bounded expansion,
  topological sort by repeatedly removing a ready node, and elementary-cycle
  enumeration by rooted depth-first search.
-/

/-- Mirrors the `OdooModule` dataclass of `analyzer.py`. -/
structure OdooModule where
  name : String
  path : String := ""
  version : String := "1.0"
  summary : String := ""
  description : String := ""
  author : String := ""
  category : String := ""
  depends : List String := []
  data : List String := []
  installable : Bool := true
  application : Bool := false
  auto_install : Bool := false
  license : String := "LGPL-3"
deriving Repr, DecidableEq

/-- The hardcoded `CORE_MODULES` set of `OdooModuleAnalyzer`. -/
def CORE_MODULES : List String :=
  ["base", "web", "mail", "portal", "auth_signup", "contacts",
   "sale", "purchase", "stock", "account", "mrp", "project",
   "hr", "crm", "website", "point_of_sale", "fleet", "lunch",
   "calendar", "note", "board", "fetchmail", "bus", "im_livechat",
   "utm", "http_routing", "digest", "phone_validation",
   "base_import", "base_setup", "web_editor", "web_tour",
   "iap", "sms", "snailmail", "product", "uom", "analytic",
   "payment", "delivery", "rating", "resource", "survey"]

/-- Order-preserving "add if absent" fold, modelling repeated
`DiGraph.add_node` / `add_edge` calls (a networkx `DiGraph` is a simple
graph: re-adding an existing node or edge is a no-op). -/
def insertNew {α : Type} [DecidableEq α] (acc l : List α) : List α :=
  l.foldl (fun a x => if x ∈ a then a else a ++ [x]) acc

/-- The keys of the module mapping (`self.modules.keys()`). -/
def scannedNames (ms : List OdooModule) : List String :=
  ms.map (·.name)

/-- Node list of the graph built by `build_dependency_graph`: first every
scanned module is added as a node, then every declared dependency that is
not yet a node is added (as an external placeholder). -/
def graphNodes (ms : List OdooModule) : List String :=
  insertNew (scannedNames ms) (ms.flatMap (·.depends))

/-- Edge list of the graph built by `build_dependency_graph`: one directed
edge `(M, D)` for every module `M` and declared dependency `D` (collapsing
duplicates, as `DiGraph.add_edge` does). -/
def graphEdges (ms : List OdooModule) : List (String × String) :=
  insertNew [] (ms.flatMap (fun m => m.depends.map (fun d => (m.name, d))))

/-- The nodes carrying `is_external=True`: dependency names added in the
second phase of `build_dependency_graph`, i.e. nodes that are not scanned
modules. -/
def externalNodes (ms : List OdooModule) : List String :=
  (graphNodes ms).filter (fun n => !(scannedNames ms).contains n)

/-- Edge membership, as a Boolean. -/
def edgeB (edges : List (String × String)) (a b : String) : Bool :=
  edges.contains (a, b)

/-- Edge relation of an embedded graph. -/
def Edge (edges : List (String × String)) (a b : String) : Prop :=
  edgeB edges a b = true

instance (edges : List (String × String)) : DecidableRel (Edge edges) :=
  fun a b => inferInstanceAs (Decidable (edgeB edges a b = true))

/-- Successors of a node (targets of its outgoing edges). -/
def succs (edges : List (String × String)) (a : String) : List String :=
  (edges.filter (fun e => e.1 == a)).map (·.2)

/-- All nodes reachable from `a` by a walk of at most `n` edges (with
multiplicity; only membership matters).  This is the executable embedding
of graph reachability, used below for `nx.descendants` / `nx.ancestors`. -/
def reachN (edges : List (String × String)) : Nat → String → List String
  | 0, a => [a]
  | n + 1, a => a :: (succs edges a).flatMap (reachN edges n)

/-- `a` reaches `b` by a walk of at least one edge. -/
def Reaches (edges : List (String × String)) (a b : String) : Prop :=
  ∃ l, List.Chain (Edge edges) a (l ++ [b])

/-- The graph contains a closed walk (equivalently, a directed cycle). -/
def HasCycle (edges : List (String × String)) : Prop :=
  ∃ a l, List.Chain (Edge edges) a (l ++ [a])

/-- The graph contains no directed cycle. -/
def Acyclic (edges : List (String × String)) : Prop :=
  ¬ HasCycle edges

/-- Lexicographic strict comparison of character lists by code point. -/
def strLtList : List Char → List Char → Bool
  | [], [] => false
  | [], _ :: _ => true
  | _ :: _, [] => false
  | c :: cs, d :: ds =>
    if c.val < d.val then true else if d.val < c.val then false else strLtList cs ds

/-- Python's string order (`a <= b`): lexicographic on code points. -/
def strLeB (a b : String) : Bool := !(strLtList b.data a.data)

/-- Insertion of a string into a sorted list (for Python's `sorted`). -/
def insertSorted (s : String) : List String → List String
  | [] => [s]
  | t :: ts => if strLeB s t then s :: t :: ts else t :: insertSorted s ts

/-- Embedding of Python's `sorted` on lists of strings. -/
def sortStrings (l : List String) : List String :=
  l.foldr insertSorted []

/-- `OdooModuleAnalyzer.get_all_dependencies`: all nodes reachable from
`name` (excluding `name` itself, as `nx.descendants` does), `[]` when
`name` is not a node; with `include_core = false` core modules are
filtered out. -/
def get_all_dependencies (ms : List OdooModule) (name : String)
    (include_core : Bool := true) : List String :=
  if (graphNodes ms).contains name then
    let deps := ((reachN (graphEdges ms) (graphNodes ms).length name).filter
      (fun d => d != name)).dedup
    if include_core then deps else deps.filter (fun d => !CORE_MODULES.contains d)
  else []

/-- `OdooModuleAnalyzer.get_reverse_dependencies`: `nx.ancestors`, i.e. all
nodes from which `name` is reachable (excluding `name` itself), `[]` when
`name` is not a node. -/
def get_reverse_dependencies (ms : List OdooModule) (name : String) : List String :=
  if (graphNodes ms).contains name then
    (graphNodes ms).filter
      (fun m => m != name && (reachN (graphEdges ms) (graphNodes ms).length m).contains name)
  else []

/-- A node of `remaining` all of whose outgoing edges leave `remaining`
(i.e. a node with in-degree zero in the reversed graph restricted to
`remaining`): the node `nx.topological_sort` of the reversed graph may
output next. -/
def pickReady (edges : List (String × String)) (remaining : List String) :
    Option String :=
  remaining.find? (fun n => edges.all (fun e => !(e.1 == n && remaining.contains e.2)))

/-- Kahn-style topological sort of the reversed dependency graph:
repeatedly output a node whose dependencies have all been output already.
Returns `none` exactly when the graph is cyclic (`nx.NetworkXUnfeasible`). -/
def topoAux (edges : List (String × String)) : Nat → List String → Option (List String)
  | 0, remaining => if remaining.isEmpty then some [] else none
  | fuel + 1, remaining =>
    if remaining.isEmpty then some []
    else
      match pickReady edges remaining with
      | none => none
      | some n => (topoAux edges fuel (remaining.erase n)).map (n :: ·)

/-- `list(nx.topological_sort(self.graph.reverse()))`, as an `Option`. -/
def topoSort (nodes : List String) (edges : List (String × String)) :
    Option (List String) :=
  topoAux edges nodes.length nodes

/-- The `required` set of `get_install_order`: the requested names plus all
their transitive dependencies. -/
def requiredSet (ms : List OdooModule) (moduleNames : List String) : List String :=
  moduleNames.foldl
    (fun acc name => insertNew (insertNew acc [name]) (get_all_dependencies ms name)) []

/-- Membership test in the `required` set. -/
def requiredB (ms : List OdooModule) (moduleNames : List String) (m : String) : Bool :=
  (requiredSet ms moduleNames).contains m

/-- `OdooModuleAnalyzer.get_install_order`: topological sort of the
reversed graph; on a cycle, a warning is printed and `[]` returned.  When a
non-empty list of module names is supplied (`if module_names:` — `None` and
`[]` are both falsy), the order is filtered to the names plus their
transitive dependencies. -/
def get_install_order (ms : List OdooModule)
    (module_names : Option (List String) := none) : List String :=
  match topoSort (graphNodes ms) (graphEdges ms) with
  | none => []
  | some order =>
    match module_names with
    | none => order
    | some names =>
      if names.isEmpty then order
      else order.filter (fun m => requiredB ms names m)

/-- Depth-first enumeration of the elementary cycles rooted at `start`
whose other nodes all lie in `allowed`: `pathRev` is the reversed node
path from `start` to `cur`.  A cycle is emitted when an edge back to
`start` closes the path. -/
def cyclesFrom (edges : List (String × String)) :
    Nat → String → List String → List String → String → List (List String)
  | 0, _, _, _, _ => []
  | fuel + 1, start, allowed, pathRev, cur =>
    (if edgeB edges cur start then [pathRev.reverse] else []) ++
      ((succs edges cur).filter
          (fun b => allowed.contains b && !pathRev.contains b)).flatMap
        (fun b => cyclesFrom edges fuel start allowed (b :: pathRev) b)

/-- `OdooModuleAnalyzer.find_circular_dependencies`
(`list(nx.simple_cycles(self.graph))`): every elementary directed cycle,
listed once, rooted at its first node in graph-node order. -/
def find_circular_dependencies (ms : List OdooModule) : List (List String) :=
  let nodes := graphNodes ms
  let edges := graphEdges ms
  nodes.enum.flatMap
    (fun p => cyclesFrom edges (nodes.length + 1) p.2 (nodes.drop (p.1 + 1)) [p.2] p.2)

/-! ## Model analyzer (`upgrade_analyzer.py`, class `ModelAnalyzer`)

The Python `ast` shapes that `_parse_class` inspects are embedded as a
small inductive syntax: assignments to plain names, function definitions,
constants, lists/tuples/dicts of expressions, and calls whose callee is an
attribute access on a plain name (`fields.Char(...)`).  Shapes the source
never looks into are collapsed to `other` constructors. -/

/-- Python values as produced by `ModelAnalyzer._get_value`. -/
inductive PyVal where
  | vStr (s : String)
  | vBool (b : Bool)
  | vInt (i : Int)
  | vNone
  | vList (l : List PyVal)

instance : Inhabited PyVal := ⟨.vNone⟩

/-- The callee of a call expression: `attrF base attr` is
`Attribute(value=Name(base), attr=attr)`; anything else is `otherF`. -/
inductive PyFunc where
  | attrF (base : String) (attr : String)
  | otherF
deriving Repr, DecidableEq

/-- Embedded Python expressions (the shapes `ModelAnalyzer` inspects). -/
inductive PyExpr where
  | constStr (s : String)
  | constBool (b : Bool)
  | constInt (i : Int)
  | constNone
  | listE (elts : List PyExpr)
  | tupleE (elts : List PyExpr)
  | dictE (pairs : List (PyExpr × PyExpr))
  | call (func : PyFunc) (args : List PyExpr) (keywords : List (Option String × PyExpr))
  | otherE

/-- An assignment target: a plain name, or anything else (which
`_parse_class` skips). -/
inductive PyTarget where
  | nameT (id : String)
  | otherT
deriving Repr, DecidableEq

/-- A statement in a class body, as `_parse_class` distinguishes them. -/
inductive ClassItem where
  | assign (targets : List PyTarget) (value : PyExpr)
  | funcDef (name : String)
  | otherItem

/-- A Python class definition (`ast.ClassDef`): its name and body. -/
structure PyClassDef where
  name : String
  body : List ClassItem

/-- `ModelAnalyzer.FIELD_TYPES`. -/
def FIELD_TYPES : List String :=
  ["Char", "Text", "Html", "Integer", "Float", "Monetary",
   "Boolean", "Date", "Datetime", "Binary", "Image",
   "Selection", "Reference", "Many2one", "One2many", "Many2many"]

/-- `ModelAnalyzer._get_string_value`: the string of a constant, with falsy
constants (empty string, `False`, `0`, `None`) mapped to `""`, and
non-constant nodes mapped to `""`. -/
def getStringValue : PyExpr → String
  | .constStr s => s
  | .constBool b => if b then "True" else ""
  | .constInt i => if i = 0 then "" else toString i
  | _ => ""

/-- `ModelAnalyzer._get_bool_value`: `bool()` of a constant, `False`
otherwise. -/
def getBoolValue : PyExpr → Bool
  | .constStr s => s != ""
  | .constBool b => b
  | .constInt i => i != 0
  | _ => false

mutual

/-- `ModelAnalyzer._get_value`: constants to values, lists and tuples
elementwise, everything else to `None`. -/
def getValue : PyExpr → PyVal
  | .constStr s => .vStr s
  | .constBool b => .vBool b
  | .constInt i => .vInt i
  | .listE l => .vList (getValueList l)
  | .tupleE l => .vList (getValueList l)
  | _ => .vNone

def getValueList : List PyExpr → List PyVal
  | [] => []
  | e :: es => getValue e :: getValueList es

end

/-- `ModelAnalyzer._parse_dict`: keep the pairs whose key renders to a
non-empty string. -/
def parseDict (pairs : List (PyExpr × PyExpr)) : List (String × String) :=
  pairs.foldl
    (fun acc p =>
      let k := getStringValue p.1
      if k != "" then acc ++ [(k, getStringValue p.2)] else acc) []

/-- `ModelAnalyzer._is_field_definition`: a call of the shape
`fields.Type(...)` with `Type` in the field-type vocabulary. -/
def isFieldDefinition : PyExpr → Bool
  | .call (.attrF base attr) _ _ => base == "fields" && FIELD_TYPES.contains attr
  | _ => false

/-- Mirrors the `ModelField` dataclass. -/
structure ModelField where
  name : String
  field_type : String
  comodel_name : Option String := none
  related : Option String := none
  compute : Option String := none
  store : Bool := true
  required : Bool := false
  readonly : Bool := false
  string : String := ""
deriving Repr, DecidableEq

/-- One keyword argument processed by `_parse_field`. -/
def applyFieldKeyword (f : ModelField) (kw : Option String × PyExpr) : ModelField :=
  match kw.1 with
  | some "comodel_name" => { f with comodel_name := some (getStringValue kw.2) }
  | some "related" => { f with related := some (getStringValue kw.2) }
  | some "compute" => { f with compute := some (getStringValue kw.2) }
  | some "store" => { f with store := getBoolValue kw.2 }
  | some "required" => { f with required := getBoolValue kw.2 }
  | some "readonly" => { f with readonly := getBoolValue kw.2 }
  | some "string" => { f with string := getStringValue kw.2 }
  | _ => f

/-- `ModelAnalyzer._parse_field`: requires a call with an attribute callee
whose attribute is a known field type; processes the recognized keyword
arguments; for the three relational types with a constant first positional
argument, that constant becomes the target entity (rendered as a string
here; the source stores the raw constant). -/
def parseField (name : String) (node : PyExpr) : Option ModelField :=
  match node with
  | .call (.attrF _ ft) args keywords =>
    if FIELD_TYPES.contains ft then
      let f : ModelField := { name := name, field_type := ft }
      let f := keywords.foldl applyFieldKeyword f
      let f :=
        if (ft == "Many2one" || ft == "One2many" || ft == "Many2many") then
          match args.head? with
          | some (.constStr s) => { f with comodel_name := some s }
          | some (.constBool b) => { f with comodel_name := some (if b then "True" else "False") }
          | some (.constInt i) => { f with comodel_name := some (toString i) }
          | _ => f
        else f
      some f
    else none
  | _ => none

/-- Mirrors the `OdooModel` dataclass.  `name` is a `PyVal` because the
source initializes it to `""`, `_name` assignments store a string, and the
final inheritance fallback can store an arbitrary value or `None`. -/
structure OdooModel where
  name : PyVal := .vStr ""
  inherit : List PyVal := []
  inherits : List (String × String) := []
  description : String := ""
  fields : List (String × ModelField) := []
  methods : List String := []
  module : String := ""
  file_path : String := ""

/-- Dict update `model.fields[k] = v` (replace in place, else append). -/
def upsertField (fs : List (String × ModelField)) (k : String) (v : ModelField) :
    List (String × ModelField) :=
  if fs.any (·.1 == k) then fs.map (fun p => if p.1 == k then (k, v) else p)
  else fs ++ [(k, v)]

/-- Python truthiness of a `PyVal` (`if not model.name`). -/
def pyFalsy : PyVal → Bool
  | .vStr s => s == ""
  | .vBool b => !b
  | .vInt i => i == 0
  | .vNone => true
  | .vList l => l.isEmpty

/-- One `ast.Name` assignment target inside `_parse_class`.  Field
assignments update `model.fields` but do NOT set `is_odoo_model`: the
source's second `elif isinstance(item, ast.Assign)` branch (which would set
it) is unreachable, since it repeats the condition of the branch above. -/
def processAssignTarget (st : OdooModel × Bool) (t : PyTarget) (value : PyExpr) :
    OdooModel × Bool :=
  match t with
  | .otherT => st
  | .nameT attr =>
    if attr == "_name" then
      ({ st.1 with name := .vStr (getStringValue value) }, true)
    else if attr == "_inherit" then
      match getValue value with
      | .vStr s => ({ st.1 with inherit := [.vStr s] }, true)
      | .vList l => ({ st.1 with inherit := l }, true)
      | _ => st
    else if attr == "_inherits" then
      match value with
      | .dictE pairs => ({ st.1 with inherits := parseDict pairs }, st.2)
      | _ => st
    else if attr == "_description" then
      ({ st.1 with description := getStringValue value }, st.2)
    else if FIELD_TYPES.contains attr || isFieldDefinition value then
      match parseField attr value with
      | some f => ({ st.1 with fields := upsertField st.1.fields attr f }, st.2)
      | none => st
    else st

/-- One class-body statement inside `_parse_class`. -/
def processClassItem (st : OdooModel × Bool) (item : ClassItem) : OdooModel × Bool :=
  match item with
  | .assign targets value => targets.foldl (fun s t => processAssignTarget s t value) st
  | .funcDef n => ({ st.1 with methods := st.1.methods ++ [n] }, st.2)
  | .otherItem => st

/-- `ModelAnalyzer._parse_class`: fold the body, then apply the
"no `_name` but `_inherit` present" fallback, and return the model only if
`is_odoo_model` was set. -/
def parseClass (node : PyClassDef) (moduleName filePath : String) : Option OdooModel :=
  let init : OdooModel := { module := moduleName, file_path := filePath }
  let st := node.body.foldl processClassItem (init, false)
  let st :=
    if pyFalsy st.1.name && !st.1.inherit.isEmpty then
      ({ st.1 with
          name := if st.1.inherit.length == 1 then st.1.inherit[0]! else .vNone }, true)
    else st
  if st.2 then some st.1 else none

/-! ## Upgrade analyzer (`upgrade_analyzer.py`, class `UpgradeAnalyzer`) -/

/-- Mirrors the `UpgradeImpact` dataclass. -/
structure UpgradeImpact where
  module_name : String
  direct_dependents : List String := []
  all_dependents : List String := []
  affected_models : List String := []
  risk_level : String := "low"
  risk_factors : List String := []
  recommendations : List String := []
deriving Repr, DecidableEq

/-- The "module not found" risk factor of `assess_upgrade_impact`. -/
def notFoundFactor (name : String) : String :=
  s!"模块 {name} 不存在"

/-- The tier-and-factors threshold computation of
`assess_upgrade_impact`, over the dependent count `dc` and the model count
`mc`. -/
def computeRisk (module_name : String) (dc mc : Nat) : String × List String :=
  let riskFactors0 : String × List String :=
    if dc > 50 || CORE_MODULES.contains module_name then
      ("critical", [s!"核心模块，{dc} 个模块依赖此模块"])
    else if dc > 20 then ("high", [s!"高影响模块，{dc} 个模块依赖此模块"])
    else if dc > 5 then ("medium", [s!"中等影响，{dc} 个模块依赖此模块"])
    else ("low", [])
  if mc > 10 then
    ((if riskFactors0.1 == "low" then "medium" else riskFactors0.1),
      riskFactors0.2 ++ [s!"定义了 {mc} 个模型"])
  else riskFactors0

/-- The recommendations attached per risk tier. -/
def riskRecommendations (risk : String) : List String :=
  if risk == "critical" then
    ["⚠️ 建议在测试环境充分测试后再升级", "📋 制定详细的回滚计划", "📊 升级前备份数据库"]
  else if risk == "high" then
    ["🔍 仔细检查所有依赖模块的兼容性", "📊 建议先在测试环境验证"]
  else if risk == "medium" then
    ["✅ 检查直接依赖模块的兼容性"]
  else ["✅ 可以安全升级"]

/-- `UpgradeAnalyzer.assess_upgrade_impact`.  The analyzer's filesystem
model scan (`ModelAnalyzer.analyze_module(module.path)`, returning a dict
keyed by model name) is abstracted by `modelsOf : path → model keys`.
Note that `direct_dependents` is `sorted(get_reverse_dependencies(name))`,
i.e. the transitive ancestor set, and `all_dependents` additionally unions
in each of those ancestors' own ancestor sets. -/
def assess_upgrade_impact (ms : List OdooModule) (modelsOf : String → List String)
    (module_name : String) : UpgradeImpact :=
  if !(scannedNames ms).contains module_name then
    { module_name := module_name
      risk_level := "critical"
      risk_factors := [notFoundFactor module_name]
      recommendations := riskRecommendations "critical" }
  else
    let direct := sortStrings (get_reverse_dependencies ms module_name)
    let allD := sortStrings (direct.foldl
      (fun acc d => insertNew (insertNew acc [d]) (get_reverse_dependencies ms d)) [])
    let affected :=
      match ms.find? (fun m => m.name == module_name) with
      | some m => sortStrings (modelsOf m.path)
      | none => []
    let dc := allD.length
    let mc := affected.length
    let riskFactors := computeRisk module_name dc mc
    { module_name := module_name
      direct_dependents := direct
      all_dependents := allD
      affected_models := affected
      risk_level := riskFactors.1
      risk_factors := riskFactors.2
      recommendations := riskRecommendations riskFactors.1 }

/-- Mirrors the `VersionDiff` dataclass: modified modules as
`(name, changes)`, dependency changes as `(module, added, removed)`. -/
structure VersionDiff where
  added_modules : List String := []
  removed_modules : List String := []
  modified_modules : List (String × List String) := []
  dependency_changes : List (String × List String × List String) := []
deriving Repr, DecidableEq

/-- `UpgradeAnalyzer._compare_module`: the human-readable change list for a
module present in both snapshots. -/
def compareModule (source target : OdooModule) : List String :=
  (if source.version != target.version then
    (let sv := source.version
     let tv := target.version
     [s!"版本变更: {sv} → {tv}"])
   else []) ++
  (if source.category != target.category then
    (let sc := source.category
     let tc := target.category
     [s!"分类变更: {sc} → {tc}"])
   else []) ++
  (if source.application != target.application then
    (let status := if target.application then "是" else "否"
     [s!"应用状态变更: {status}"])
   else []) ++
  (if !(source.depends.all (target.depends.contains ·) &&
        target.depends.all (source.depends.contains ·)) then
    ["依赖关系已变更"]
   else [])

/-- Dict lookup in a module mapping. -/
def moduleFind (ms : List OdooModule) (name : String) : Option OdooModule :=
  ms.find? (·.name == name)

/-- The state of an `UpgradeAnalyzer`: each loaded side is modelled by its
scanned module mapping (`None` before `load_source` / `load_target`). -/
structure UpgradeAnalyzerState where
  source_analyzer : Option (List OdooModule) := none
  target_analyzer : Option (List OdooModule) := none

/-- The message of the `ValueError` raised by `compare_versions` when a
side is missing. -/
def loadErrorMessage : String := "请先加载源版本和目标版本"

/-- `UpgradeAnalyzer.compare_versions`: raises (`Except.error`) unless both
sides are loaded; otherwise computes added/removed/modified modules and
per-module dependency deltas. -/
def compare_versions (st : UpgradeAnalyzerState) : Except String VersionDiff :=
  match st.source_analyzer, st.target_analyzer with
  | some sms, some tms =>
    let sNames := scannedNames sms
    let tNames := scannedNames tms
    let common := sortStrings ((sNames.filter (tNames.contains ·)).dedup)
    Except.ok
      { added_modules := sortStrings ((tNames.filter (fun n => !sNames.contains n)).dedup)
        removed_modules := sortStrings ((sNames.filter (fun n => !tNames.contains n)).dedup)
        modified_modules := common.filterMap (fun n =>
          match moduleFind sms n, moduleFind tms n with
          | some s, some t =>
            let changes := compareModule s t
            if changes.isEmpty then none else some (n, changes)
          | _, _ => none)
        dependency_changes := common.filterMap (fun n =>
          match moduleFind sms n, moduleFind tms n with
          | some s, some t =>
            let addedDeps :=
              sortStrings ((t.depends.filter (fun d => !s.depends.contains d)).dedup)
            let removedDeps :=
              sortStrings ((s.depends.filter (fun d => !t.depends.contains d)).dedup)
            if addedDeps.isEmpty && removedDeps.isEmpty then none
            else some (n, addedDeps, removedDeps)
          | _, _ => none) }
  | _, _ => Except.error loadErrorMessage

/-- The state of an `OdooModuleAnalyzer`: its module mapping and its
lazily built graph (`self.graph`, `None` until built). -/
structure AnalyzerState where
  modules : List OdooModule := []
  graph : Option (List String × List (String × String)) := none

/-- Stateful `OdooModuleAnalyzer.get_all_dependencies`: when `self.graph is
None` the graph is silently built from the current (possibly empty) module
mapping, and an absent module name yields `set()` — the function has no
raising path, so the embedding always returns `Except.ok`. -/
def AnalyzerState.allDependenciesE (st : AnalyzerState) (name : String)
    (include_core : Bool := true) : Except String (List String) :=
  let g := st.graph.getD (graphNodes st.modules, graphEdges st.modules)
  Except.ok
    (if g.1.contains name then
      let deps := ((reachN g.2 g.1.length name).filter (fun d => d != name)).dedup
      if include_core then deps else deps.filter (fun d => !CORE_MODULES.contains d)
    else [])

/-- The dependent count the risk thresholds are applied to
(`len(impact.all_dependents)`). -/
def dependentCount (ms : List OdooModule) (modelsOf : String → List String)
    (name : String) : Nat :=
  (assess_upgrade_impact ms modelsOf name).all_dependents.length

/-- The entity count the medium-escalation is applied to
(`len(impact.affected_models)`). -/
def modelCount (ms : List OdooModule) (modelsOf : String → List String)
    (name : String) : Nat :=
  (assess_upgrade_impact ms modelsOf name).affected_models.length

/-- The assigned risk tier. -/
def riskLevel (ms : List OdooModule) (modelsOf : String → List String)
    (name : String) : String :=
  (assess_upgrade_impact ms modelsOf name).risk_level

/-! ## Module scanner (`analyzer.py`, `scan_modules` / `_scan_directory`)

The filesystem is embedded as a tree of named directories and files with
string contents.  Manifest-content parsing (`_safe_parse_manifest` followed
by the `manifest_data.get(...)` defaulting in `_parse_module`) is
abstracted by a parameter `pc : content → Option ManifestData`. -/

/-- A filesystem tree. -/
inductive FSTree where
  | file (name : String) (content : String)
  | dir (name : String) (children : List FSTree)

/-- The entry's name. -/
def FSTree.entryName : FSTree → String
  | .file n _ => n
  | .dir n _ => n

/-- Whether the entry is a directory. -/
def FSTree.isDirE : FSTree → Bool
  | .file _ _ => false
  | .dir _ _ => true

/-- The recognized manifest fields after defaulting, i.e. the result of a
successful `_parse_module` minus the name/path (which come from the
directory). -/
structure ManifestData where
  version : String := "1.0"
  summary : String := ""
  description : String := ""
  author : String := ""
  category : String := ""
  depends : List String := []
  data : List String := []
  installable : Bool := true
  application : Bool := false
  auto_install : Bool := false
  license : String := "LGPL-3"
deriving Repr, DecidableEq

/-- Python's `name.startswith('.')`: the first character is a dot. -/
def startsWithDot (s : String) : Bool :=
  match s.data with
  | [] => false
  | c :: _ => c == '.'

/-- Keep an entry unless it is a dot-named directory (the level-one filter
of `_scan_directory`). -/
def keepEntry : FSTree → Bool
  | .file _ _ => true
  | .dir n _ => !startsWithDot n

/-- `(path / nm).exists()`: a child of that name, file or directory. -/
def childExists (children : List FSTree) (nm : String) : Bool :=
  children.any (fun c => c.entryName == nm)

/-- The content of a child regular file of that name (`open` on a
directory of that name raises, which `_parse_module` swallows). -/
def fileContent (children : List FSTree) (nm : String) : Option String :=
  children.findSome? (fun c =>
    match c with
    | .file n s => if n == nm then some s else none
    | .dir _ _ => none)

/-- `OdooModuleAnalyzer._is_odoo_module`: an `__init__.py` entry together
with a `__manifest__.py` or `__openerp__.py` entry. -/
def isOdooModuleDir : FSTree → Bool
  | .file _ _ => false
  | .dir _ children =>
    childExists children "__init__.py" &&
      (childExists children "__manifest__.py" || childExists children "__openerp__.py")

/-- `OdooModuleAnalyzer._parse_module`: read `__manifest__.py` (falling
back to `__openerp__.py`), parse its content, and build the module with
`name = path.name` (the directory name, also standing in for the retained
path here). -/
def parseModuleDir (pc : String → Option ManifestData) : FSTree → Option OdooModule
  | .file _ _ => none
  | .dir name children =>
    let mf :=
      if childExists children "__manifest__.py" then fileContent children "__manifest__.py"
      else if childExists children "__openerp__.py" then fileContent children "__openerp__.py"
      else none
    match mf with
    | none => none
    | some content =>
      (pc content).map (fun md =>
        { name := name, path := name, version := md.version, summary := md.summary,
          description := md.description, author := md.author, category := md.category,
          depends := md.depends, data := md.data, installable := md.installable,
          application := md.application, auto_install := md.auto_install,
          license := md.license })

/-- `self.modules[module.name] = module`: dict update (replace in place,
else append). -/
def addModule (acc : List OdooModule) (m : OdooModule) : List OdooModule :=
  if acc.any (·.name == m.name) then acc.map (fun x => if x.name == m.name then m else x)
  else acc ++ [m]

/-- Parse a candidate module directory and record it when parsing
succeeds. -/
def scanAdd (pc : String → Option ManifestData) (t : FSTree) (acc : List OdooModule) :
    List OdooModule :=
  match parseModuleDir pc t with
  | some m => addModule acc m
  | none => acc

/-- One first-level entry of the directory scan: skip files and dot-named
directories; parse module subdirectories; scan non-module subdirectories
exactly one level deeper — where the source applies no dot-name filter. -/
def scanChild (pc : String → Option ManifestData) (acc : List OdooModule)
    (item : FSTree) : List OdooModule :=
  match item with
  | .file _ _ => acc
  | .dir iname ichildren =>
    if startsWithDot iname then acc
    else if isOdooModuleDir item then scanAdd pc item acc
    else
      ichildren.foldl
        (fun acc sub =>
          if sub.isDirE && isOdooModuleDir sub then scanAdd pc sub acc else acc)
        acc

/-- `OdooModuleAnalyzer._scan_directory`: if the directory itself is a
module, parse it; otherwise process each child with `scanChild`. -/
def scanDirectory (pc : String → Option ManifestData) (t : FSTree)
    (acc : List OdooModule) : List OdooModule :=
  if isOdooModuleDir t then scanAdd pc t acc
  else
    match t with
    | .file _ _ => acc
    | .dir _ children => children.foldl (scanChild pc) acc

/-- `OdooModuleAnalyzer.scan_modules` over a list of (existing, directory)
roots. -/
def scan_modules (pc : String → Option ManifestData) (roots : List FSTree) :
    List OdooModule :=
  roots.foldl (fun acc r => scanDirectory pc r acc) []

/-- Position of the first occurrence of `a` (length when absent). -/
def posIn (a : String) : List String → Nat
  | [] => 0
  | x :: xs => if x = a then 0 else posIn a xs + 1

/-! ## Concrete example inputs referenced by the claims -/

/-- Example mapping: `A` depends on `B`, `B` on `C`, `C` on nothing. -/
def chainMs : List OdooModule :=
  [{ name := "A", depends := ["B"] }, { name := "B", depends := ["C"] },
   { name := "C" }]

/-- Example mapping with a three-cycle `A → B → C → A`. -/
def cycMs : List OdooModule :=
  [{ name := "A", depends := ["B"] }, { name := "B", depends := ["C"] },
   { name := "C", depends := ["A"] }]

/-- Example mapping with a two-cycle `A → B → A`. -/
def cyc2Ms : List OdooModule :=
  [{ name := "A", depends := ["B"] }, { name := "B", depends := ["A"] }]

/-- Example mapping: `Y` depends on `X` and `Z` depends on `Y`. -/
def revChainMs : List OdooModule :=
  [{ name := "X" }, { name := "Y", depends := ["X"] },
   { name := "Z", depends := ["Y"] }]

/-- The trivial model scan: no models anywhere. -/
def noModels : String → List String := fun _ => []

/-- A class body consisting of a single recognized field assignment and no
identity or inheritance assignment. -/
def fieldOnlyClass : PyClassDef :=
  { name := "FieldOnly",
    body := [.assign [.nameT "partner_ref"] (.call (.attrF "fields" "Char") [] [])] }

/-- Example tree: a dot-named module directory two levels below the root,
inside a non-module intermediate directory. -/
def dotTree : FSTree :=
  .dir "root"
    [.dir "sub"
      [.dir ".hidden" [.file "__init__.py" "", .file "__manifest__.py" "{}"]]]

/-- A manifest-content parser accepting every content with default
fields (as the real parser does on an empty literal manifest). -/
def pcAll : String → Option ManifestData := fun _ => some {}

/-! ## Basic lemmas about the list and graph-building helpers -/

theorem mem_insertNew {α : Type} [DecidableEq α] (x : α) (l : List α) :
    ∀ acc : List α, x ∈ insertNew acc l ↔ x ∈ acc ∨ x ∈ l := by
  induction l with
  | nil => intro acc; simp [insertNew]
  | cons c cs ih =>
    intro acc
    by_cases hc : c ∈ acc
    · simp only [insertNew, List.foldl_cons, if_pos hc]
      rw [show List.foldl _ acc cs = insertNew acc cs from rfl, ih]
      constructor
      · rintro (h | h)
        · exact Or.inl h
        · exact Or.inr (List.mem_cons_of_mem _ h)
      · rintro (h | h)
        · exact Or.inl h
        · rcases List.mem_cons.mp h with h | h
          · exact Or.inl (h ▸ hc)
          · exact Or.inr h
    · simp only [insertNew, List.foldl_cons, if_neg hc]
      rw [show List.foldl _ (acc ++ [c]) cs = insertNew (acc ++ [c]) cs from rfl, ih]
      simp only [List.mem_append, List.mem_singleton, List.mem_cons]
      tauto

theorem nodup_insertNew {α : Type} [DecidableEq α] (l : List α) :
    ∀ acc : List α, acc.Nodup → (insertNew acc l).Nodup := by
  induction l with
  | nil => intro acc h; simpa [insertNew] using h
  | cons c cs ih =>
    intro acc h
    by_cases hc : c ∈ acc
    · simpa only [insertNew, List.foldl_cons, if_pos hc] using ih acc h
    · simp only [insertNew, List.foldl_cons, if_neg hc]
      exact ih (acc ++ [c]) (by simp [List.nodup_append, h, hc])

theorem mem_sortStrings (x : String) (l : List String) :
    x ∈ sortStrings l ↔ x ∈ l := by
  have key : ∀ (s : String) (t : List String), x ∈ insertSorted s t ↔ x = s ∨ x ∈ t := by
    intro s t
    induction t with
    | nil => simp [insertSorted]
    | cons a as ih =>
      simp only [insertSorted]
      split
      · simp
      · simp only [List.mem_cons, ih]
        tauto
  induction l with
  | nil => simp [sortStrings]
  | cons a as ih =>
    simp only [sortStrings, List.foldr_cons] at *
    rw [key]
    simp only [ih, List.mem_cons]

theorem mem_graphNodes {ms : List OdooModule} {x : String} :
    x ∈ graphNodes ms ↔ x ∈ scannedNames ms ∨ ∃ m ∈ ms, x ∈ m.depends := by
  rw [graphNodes, mem_insertNew]
  simp [List.mem_flatMap]

theorem mem_graphEdges {ms : List OdooModule} {a b : String} :
    (a, b) ∈ graphEdges ms ↔ ∃ m ∈ ms, a = m.name ∧ b ∈ m.depends := by
  rw [graphEdges, mem_insertNew]
  simp only [List.not_mem_nil, false_or, List.mem_flatMap, List.mem_map]
  constructor
  · rintro ⟨m, hm, d, hd, h⟩
    rcases Prod.mk.injEq .. ▸ h with ⟨h1, h2⟩
    exact ⟨m, hm, h1.symm, h2 ▸ hd⟩
  · rintro ⟨m, hm, rfl, hb⟩
    exact ⟨m, hm, b, hb, rfl⟩

theorem graphEdges_mem_nodes {ms : List OdooModule} {a b : String}
    (h : (a, b) ∈ graphEdges ms) : a ∈ graphNodes ms ∧ b ∈ graphNodes ms := by
  rcases mem_graphEdges.mp h with ⟨m, hm, rfl, hb⟩
  constructor
  · exact mem_graphNodes.mpr (Or.inl (List.mem_map_of_mem _ hm))
  · exact mem_graphNodes.mpr (Or.inr ⟨m, hm, hb⟩)

/-! ## Walks, reachability and cycles -/

theorem edge_iff {edges : List (String × String)} {a b : String} :
    Edge edges a b ↔ (a, b) ∈ edges := by
  simp [Edge, edgeB]

theorem mem_succs {edges : List (String × String)} {a b : String} :
    b ∈ succs edges a ↔ (a, b) ∈ edges := by
  simp only [succs, List.mem_map, List.mem_filter]
  constructor
  · rintro ⟨e, ⟨he, hb⟩, rfl⟩
    rcases e with ⟨x, y⟩
    simp only [beq_iff_eq] at hb
    exact hb ▸ he
  · intro h
    exact ⟨(a, b), ⟨h, by simp⟩, rfl⟩

theorem self_mem_reachN (edges : List (String × String)) (n : Nat) (a : String) :
    a ∈ reachN edges n a := by
  cases n <;> simp [reachN]

/-- Membership in `reachN` is existence of a short enough walk. -/
theorem mem_reachN_iff {edges : List (String × String)} :
    ∀ {n : Nat} {a b : String},
      b ∈ reachN edges n a ↔
        b = a ∨ ∃ l, l.length + 1 ≤ n ∧ List.Chain (Edge edges) a (l ++ [b]) := by
  intro n
  induction n with
  | zero => intro a b; simp [reachN]
  | succ n ih =>
    intro a b
    simp only [reachN, List.mem_cons, List.mem_flatMap]
    constructor
    · rintro (rfl | ⟨c, hc, hbc⟩)
      · exact Or.inl rfl
      · have hedge : Edge edges a c := edge_iff.mpr (mem_succs.mp hc)
        rcases ih.mp hbc with rfl | ⟨l, hlen, hch⟩
        · exact Or.inr ⟨[], by simp, by simpa [List.chain_cons] using hedge⟩
        · exact Or.inr ⟨c :: l, by simpa using Nat.succ_le_succ hlen,
            by simpa [List.chain_cons] using ⟨hedge, hch⟩⟩
    · rintro (rfl | ⟨l, hlen, hch⟩)
      · exact Or.inl rfl
      · cases l with
        | nil =>
          simp only [List.nil_append, List.chain_cons] at hch
          exact Or.inr ⟨b, mem_succs.mpr (edge_iff.mp hch.1), self_mem_reachN edges n b⟩
        | cons c cs =>
          simp only [List.cons_append, List.chain_cons] at hch
          refine Or.inr ⟨c, mem_succs.mpr (edge_iff.mp hch.1), ih.mpr (Or.inr ?_)⟩
          exact ⟨cs, by simpa using Nat.le_of_succ_le_succ hlen, hch.2⟩

/-- Nodes along a chain stay inside any set containing all edge
endpoints. -/
theorem chain_mem_of_edges {edges : List (String × String)} {S : List String}
    (hS : ∀ u v : String, Edge edges u v → v ∈ S) :
    ∀ {a : String} {l : List String}, List.Chain (Edge edges) a l → ∀ x ∈ l, x ∈ S := by
  intro a l
  induction l generalizing a with
  | nil => intro _ x hx; cases hx
  | cons c cs ih =>
    intro h x hx
    rw [List.chain_cons] at h
    rcases List.mem_cons.mp hx with rfl | hx
    · exact hS _ _ h.1
    · exact ih h.2 x hx

/-- A list with a repeated element splits around the two occurrences. -/
theorem not_nodup_split {α : Type} {l : List α} (h : ¬ l.Nodup) :
    ∃ (c : α) (w₁ w₂ w₃ : List α), l = w₁ ++ c :: (w₂ ++ c :: w₃) := by
  induction l with
  | nil => exact absurd List.nodup_nil h
  | cons a t ih =>
    by_cases ha : a ∈ t
    · rcases List.append_of_mem ha with ⟨s, u, rfl⟩
      exact ⟨a, [], s, u, rfl⟩
    · have : ¬ t.Nodup := fun hn => h (List.nodup_cons.mpr ⟨ha, hn⟩)
      rcases ih this with ⟨c, w₁, w₂, w₃, rfl⟩
      exact ⟨c, a :: w₁, w₂, w₃, rfl⟩

/-- A duplicate-free list inside `S` is no longer than `S.dedup`. -/
theorem nodup_length_le {α : Type} [DecidableEq α] {l S : List α}
    (hn : l.Nodup) (hs : ∀ x ∈ l, x ∈ S) : l.length ≤ S.dedup.length := by
  have h1 : l.toFinset.card = l.length := List.toFinset_card_of_nodup hn
  have h2 : l.toFinset ⊆ S.toFinset := by
    intro x hx
    exact List.mem_toFinset.mpr (hs x (List.mem_toFinset.mp hx))
  have := Finset.card_le_card h2
  rw [h1, List.card_toFinset] at this
  exact this

/-- Cutting a chain between two occurrences of the same node. -/
theorem chain_cut {R : String → String → Prop} {x c : String}
    {m₁ m₂ m₃ : List String} (h : List.Chain R x (m₁ ++ c :: (m₂ ++ c :: m₃))) :
    List.Chain R x (m₁ ++ c :: m₃) := by
  rcases List.chain_split.mp h with ⟨h1, h2⟩
  rcases List.chain_split.mp h2 with ⟨_, h4⟩
  exact List.chain_split.mpr ⟨h1, h4⟩

/-- Any walk between distinct nodes can be shortened to a duplicate-free
walk. -/
theorem chain_shorten {R : String → String → Prop} :
    ∀ (n : Nat) (l : List String) (a b : String), l.length ≤ n → a ≠ b →
      List.Chain R a (l ++ [b]) →
      ∃ l', List.Chain R a (l' ++ [b]) ∧ (a :: (l' ++ [b])).Nodup ∧
        l'.length ≤ l.length := by
  intro n
  induction n with
  | zero =>
    intro l a b hlen hne hch
    have hl : l = [] := List.length_eq_zero.mp (Nat.le_zero.mp hlen)
    subst hl
    exact ⟨[], hch, by simp [hne], Nat.le_refl _⟩
  | succ n ih =>
    intro l a b hlen hne hch
    by_cases hnd : (a :: (l ++ [b])).Nodup
    · exact ⟨l, hch, hnd, Nat.le_refl _⟩
    · rcases not_nodup_split hnd with ⟨c, w₁, w₂, w₃, heq⟩
      cases w₁ with
      | nil =>
        rw [List.nil_append] at heq
        rw [List.cons.injEq] at heq
        obtain ⟨hac, heq2⟩ := heq
        rcases List.eq_nil_or_concat w₃ with h3 | ⟨L, y, h3⟩
        · subst h3
          rcases List.append_inj' heq2 rfl with ⟨-, hb⟩
          rw [List.cons.injEq] at hb
          exact absurd (hac.trans hb.1.symm) hne
        · subst h3
          rw [List.concat_eq_append,
            show w₂ ++ c :: (L ++ [y]) = (w₂ ++ c :: L) ++ [y] by simp] at heq2
          rcases List.append_inj' heq2 rfl with ⟨hl2, hb⟩
          rw [List.cons.injEq] at hb
          obtain ⟨rfl, -⟩ := hb
          rw [hl2, show (w₂ ++ c :: L) ++ [b] = w₂ ++ c :: (L ++ [b]) by simp] at hch
          have h2 : List.Chain R c (L ++ [b]) := (List.chain_split.mp hch).2
          have h2' : List.Chain R a (L ++ [b]) := by rw [hac]; exact h2
          have hlen2 : L.length ≤ n := by
            have h5 : l.length ≤ n + 1 := hlen
            rw [hl2] at h5
            simp only [List.length_append, List.length_cons] at h5
            omega
          rcases ih L a b hlen2 hne h2' with ⟨l', h1', h2'', h3'⟩
          refine ⟨l', h1', h2'', ?_⟩
          rw [hl2]
          simp only [List.length_append, List.length_cons]
          omega
      | cons x w₁' =>
        rw [List.cons_append, List.cons.injEq] at heq
        obtain ⟨hax, heq2⟩ := heq
        rcases List.eq_nil_or_concat w₃ with h3 | ⟨L, y, h3⟩
        · subst h3
          rw [show w₁' ++ c :: (w₂ ++ [c]) = (w₁' ++ c :: w₂) ++ [c] by simp] at heq2
          rcases List.append_inj' heq2 rfl with ⟨hl2, hb⟩
          rw [List.cons.injEq] at hb
          obtain ⟨rfl, -⟩ := hb
          rw [hl2, show (w₁' ++ b :: w₂) ++ [b] = w₁' ++ b :: (w₂ ++ b :: []) by simp] at hch
          have hcut : List.Chain R a (w₁' ++ b :: ([] : List String)) := chain_cut hch
          have hlen2 : w₁'.length ≤ n := by
            have h5 : l.length ≤ n + 1 := hlen
            rw [hl2] at h5
            simp only [List.length_append, List.length_cons] at h5
            omega
          rcases ih w₁' a b hlen2 hne hcut with ⟨l', h1', h2', h3'⟩
          refine ⟨l', h1', h2', ?_⟩
          rw [hl2]
          simp only [List.length_append, List.length_cons]
          omega
        · subst h3
          rw [List.concat_eq_append,
            show w₁' ++ c :: (w₂ ++ c :: (L ++ [y])) =
              (w₁' ++ c :: (w₂ ++ c :: L)) ++ [y] by simp] at heq2
          rcases List.append_inj' heq2 rfl with ⟨hl2, hb⟩
          rw [List.cons.injEq] at hb
          obtain ⟨rfl, -⟩ := hb
          rw [hl2, show (w₁' ++ c :: (w₂ ++ c :: L)) ++ [b] =
            w₁' ++ c :: (w₂ ++ c :: (L ++ [b])) by simp] at hch
          have hcut : List.Chain R a (w₁' ++ c :: (L ++ [b])) := chain_cut hch
          have hcut' : List.Chain R a ((w₁' ++ c :: L) ++ [b]) := by
            rw [show (w₁' ++ c :: L) ++ [b] = w₁' ++ c :: (L ++ [b]) by simp]
            exact hcut
          have hlen2 : (w₁' ++ c :: L).length ≤ n := by
            have h5 : l.length ≤ n + 1 := hlen
            rw [hl2] at h5
            simp only [List.length_append, List.length_cons] at h5 ⊢
            omega
          rcases ih (w₁' ++ c :: L) a b hlen2 hne hcut' with ⟨l', h1', h2', h3'⟩
          refine ⟨l', h1', h2', ?_⟩
          rw [hl2]
          simp only [List.length_append, List.length_cons] at h3' ⊢
          omega

theorem graph_edge_mem {ms : List OdooModule} {u v : String}
    (h : Edge (graphEdges ms) u v) : u ∈ graphNodes ms ∧ v ∈ graphNodes ms :=
  graphEdges_mem_nodes (edge_iff.mp h)

/-- The source of a nonempty chain over graph edges is a graph node. -/
theorem chain_head_mem {ms : List OdooModule} {a : String} {l : List String}
    (hl : l ≠ []) (h : List.Chain (Edge (graphEdges ms)) a l) : a ∈ graphNodes ms := by
  cases l with
  | nil => exact absurd rfl hl
  | cons c cs =>
    rw [List.chain_cons] at h
    exact (graph_edge_mem h.1).1

/-- Completeness of the bounded expansion: any reachable node is found
within `(graphNodes ms).length` steps. -/
theorem reaches_mem_reachN {ms : List OdooModule} {a b : String}
    (hne : a ≠ b) (h : Reaches (graphEdges ms) a b) :
    b ∈ reachN (graphEdges ms) (graphNodes ms).length a := by
  rcases h with ⟨l, hch⟩
  rcases chain_shorten l.length l a b (Nat.le_refl _) hne hch with ⟨l', h1, h2, -⟩
  have hhead : a ∈ graphNodes ms := chain_head_mem (by simp) h1
  have hmem : ∀ x ∈ a :: (l' ++ [b]), x ∈ graphNodes ms := by
    intro x hx
    rcases List.mem_cons.mp hx with rfl | hx
    · exact hhead
    · exact chain_mem_of_edges (fun u v hv => (graph_edge_mem hv).2) h1 x hx
  have hlen := nodup_length_le h2 hmem
  have hded : (graphNodes ms).dedup.length ≤ (graphNodes ms).length :=
    (List.dedup_sublist _).length_le
  refine mem_reachN_iff.mpr (Or.inr ⟨l', ?_, h1⟩)
  simp only [List.length_cons, List.length_append, List.length_singleton] at hlen
  omega

/-- `get_all_dependencies` is exactly proper reachability from the module. -/
theorem mem_get_all_dependencies {ms : List OdooModule} {name x : String} :
    x ∈ get_all_dependencies ms name true ↔
      name ∈ graphNodes ms ∧ x ≠ name ∧ Reaches (graphEdges ms) name x := by
  unfold get_all_dependencies
  by_cases hn : name ∈ graphNodes ms
  · rw [if_pos (by simpa using hn)]
    simp only [if_true, List.mem_dedup, List.mem_filter, bne_iff_ne, ne_eq]
    constructor
    · rintro ⟨hr, hxn⟩
      rcases mem_reachN_iff.mp hr with rfl | ⟨l, -, hch⟩
      · exact absurd rfl hxn
      · exact ⟨hn, hxn, l, hch⟩
    · rintro ⟨-, hxn, hreach⟩
      exact ⟨reaches_mem_reachN (Ne.symm hxn) hreach, hxn⟩
  · rw [if_neg (by simpa using hn)]
    simp [hn]

/-- `get_reverse_dependencies` is exactly proper co-reachability. -/
theorem mem_get_reverse_dependencies {ms : List OdooModule} {name x : String} :
    x ∈ get_reverse_dependencies ms name ↔
      name ∈ graphNodes ms ∧ x ∈ graphNodes ms ∧ x ≠ name ∧
        Reaches (graphEdges ms) x name := by
  unfold get_reverse_dependencies
  by_cases hn : name ∈ graphNodes ms
  · rw [if_pos (by simpa using hn)]
    simp only [List.mem_filter, Bool.and_eq_true, bne_iff_ne, ne_eq,
      List.contains_iff_exists_mem_beq]
    constructor
    · rintro ⟨hx, hxn, y, hy, hbeq⟩
      rw [beq_iff_eq] at hbeq
      subst hbeq
      rcases mem_reachN_iff.mp hy with rfl | ⟨l, -, hch⟩
      · exact absurd rfl hxn
      · exact ⟨hn, hx, hxn, l, hch⟩
    · rintro ⟨-, hx, hxn, hreach⟩
      exact ⟨hx, hxn, name, reaches_mem_reachN hxn hreach, by simp⟩
  · rw [if_neg (by simpa using hn)]
    simp [hn]

/-- Reachability is transitive (walk concatenation). -/
theorem reaches_trans {edges : List (String × String)} {a b c : String}
    (h1 : Reaches edges a b) (h2 : Reaches edges b c) : Reaches edges a c := by
  rcases h1 with ⟨l₁, hch1⟩
  rcases h2 with ⟨l₂, hch2⟩
  refine ⟨l₁ ++ b :: l₂, ?_⟩
  rw [show (l₁ ++ b :: l₂) ++ [c] = l₁ ++ b :: (l₂ ++ [c]) by simp]
  exact List.chain_split.mpr ⟨hch1, hch2⟩

/-! ## The topological sort -/

theorem pickReady_mem {edges : List (String × String)} {remaining : List String}
    {n : String} (h : pickReady edges remaining = some n) : n ∈ remaining :=
  List.mem_of_find?_eq_some h

theorem pickReady_prop {edges : List (String × String)} {remaining : List String}
    {n : String} (h : pickReady edges remaining = some n) :
    ∀ a b : String, (a, b) ∈ edges → a = n → b ∉ remaining := by
  have hp := List.find?_some h
  rw [List.all_eq_true] at hp
  intro a b hab rfl' hbr
  subst rfl'
  have := hp (a, b) hab
  simp only [Bool.not_eq_true', Bool.and_eq_false_iff, beq_eq_false_iff_ne, ne_eq] at this
  rcases this with h1 | h2
  · exact h1 trivial
  · have hc : remaining.contains b = true :=
      List.contains_iff_exists_mem_beq.mpr ⟨b, hbr, by simp⟩
    rw [h2] at hc
    simp at hc

/-- When every remaining node keeps a dependency inside `remaining`, a
cycle exists (pigeonhole on an iterated successor orbit). -/
theorem cycle_of_succ_all {edges : List (String × String)} {S : List String}
    (hne : S ≠ []) (h : ∀ n ∈ S, ∃ b, b ∈ S ∧ (n, b) ∈ edges) : HasCycle edges := by
  classical
  let g : String → String := fun n => if hn : n ∈ S then (h n hn).choose else n
  have hg : ∀ n ∈ S, g n ∈ S ∧ Edge edges n (g n) := by
    intro n hn
    have hspec := (h n hn).choose_spec
    refine ⟨?_, ?_⟩
    · simpa only [g, dif_pos hn] using hspec.1
    · rw [edge_iff]
      simpa only [g, dif_pos hn] using hspec.2
  have hiter : ∀ (k : Nat) (x : String), x ∈ S → g^[k] x ∈ S := by
    intro k
    induction k with
    | zero => intro x hx; simpa using hx
    | succ k ih =>
      intro x hx
      rw [Function.iterate_succ_apply]
      exact ih (g x) (hg x hx).1
  have hchain : ∀ (k : Nat) (x : String), x ∈ S →
      List.Chain (Edge edges) x ((List.range k).map (fun i => g^[i + 1] x)) := by
    intro k
    induction k with
    | zero => intro x _; simp
    | succ k ih =>
      intro x hx
      rw [List.range_succ_eq_map]
      simp only [List.map_cons, List.map_map]
      rw [List.chain_cons]
      constructor
      · simpa using (hg x hx).2
      · have := ih (g x) (hg x hx).1
        have harr : ((List.range k).map fun i => g^[i + 1] (g x)) =
            (List.range k).map ((fun i => g^[i + 1] x) ∘ Nat.succ) := by
          apply List.map_congr_left
          intro i _
          simp only [Function.comp_apply]
          rw [← Function.iterate_succ_apply]
        rw [harr] at this
        exact this
  rcases List.exists_mem_of_ne_nil S hne with ⟨x₀, hx₀⟩
  set orbit : List String := x₀ :: (List.range S.length).map (fun i => g^[i + 1] x₀) with horb
  have horbmem : ∀ y ∈ orbit, y ∈ S := by
    intro y hy
    rcases List.mem_cons.mp hy with rfl | hy
    · exact hx₀
    · rcases List.mem_map.mp hy with ⟨i, -, rfl⟩
      exact hiter (i + 1) x₀ hx₀
  have hnotnodup : ¬ orbit.Nodup := by
    intro hnd
    have hlen := nodup_length_le hnd horbmem
    have hded : S.dedup.length ≤ S.length := (List.dedup_sublist _).length_le
    simp only [horb, List.length_cons, List.length_map, List.length_range] at hlen
    omega
  rcases not_nodup_split hnotnodup with ⟨c, w₁, w₂, w₃, heq⟩
  have hchain0 : List.Chain (Edge edges) x₀
      ((List.range S.length).map (fun i => g^[i + 1] x₀)) := hchain _ _ hx₀
  cases w₁ with
  | nil =>
    rw [List.nil_append, List.cons.injEq] at heq
    obtain ⟨rfl, heq2⟩ := heq
    rw [heq2] at hchain0
    exact ⟨x₀, w₂, (List.chain_split.mp hchain0).1⟩
  | cons u w₁' =>
    rw [List.cons_append, List.cons.injEq] at heq
    obtain ⟨-, heq2⟩ := heq
    rw [heq2] at hchain0
    have h2 := (List.chain_split.mp hchain0).2
    exact ⟨c, w₂, (List.chain_split.mp h2).1⟩

/-- On an acyclic edge list, the sort always succeeds. -/
theorem topoAux_success {edges : List (String × String)} (hacyc : Acyclic edges) :
    ∀ (fuel : Nat) (remaining : List String), remaining.length ≤ fuel →
      ∃ out, topoAux edges fuel remaining = some out := by
  intro fuel
  induction fuel with
  | zero =>
    intro remaining hlen
    have : remaining = [] := List.length_eq_zero.mp (Nat.le_zero.mp hlen)
    subst this
    exact ⟨[], rfl⟩
  | succ fuel ih =>
    intro remaining hlen
    by_cases hre : remaining.isEmpty
    · refine ⟨[], ?_⟩
      rw [topoAux, if_pos hre]
    · have hne : remaining ≠ [] := by
        intro h
        rw [h] at hre
        exact hre rfl
      rcases hpick : pickReady edges remaining with - | n
      · exfalso
        apply hacyc
        apply cycle_of_succ_all hne
        intro m hm
        have hnone := List.find?_eq_none.mp hpick m hm
        have hall : edges.all (fun e => !(e.1 == m && remaining.contains e.2)) = false := by
          cases hb : edges.all (fun e => !(e.1 == m && remaining.contains e.2)) with
          | false => rfl
          | true => exact absurd hb hnone
        rcases List.all_eq_false.mp hall with ⟨e, he, hq⟩
        have hq2 : (e.1 == m && remaining.contains e.2) = true := by
          cases hb : (e.1 == m && remaining.contains e.2) with
          | true => rfl
          | false => exact absurd (by rw [hb]; rfl) hq
        rw [Bool.and_eq_true, beq_iff_eq] at hq2
        refine ⟨e.2, ?_, ?_⟩
        · have hc := hq2.2
          rw [List.contains_iff_exists_mem_beq] at hc
          rcases hc with ⟨y, hy, hbeq⟩
          rw [beq_iff_eq] at hbeq
          exact hbeq ▸ hy
        · have hme : (m, e.2) = e := by
            rcases e with ⟨u, v⟩
            have hum : u = m := by simpa using hq2.1
            rw [hum]
          rw [hme]
          exact he
      · have hmem := pickReady_mem hpick
        have hlen2 : (remaining.erase n).length ≤ fuel := by
          rw [List.length_erase_of_mem hmem]
          have : 1 ≤ remaining.length := List.length_pos.mpr hne
          omega
        rcases ih (remaining.erase n) hlen2 with ⟨out, hout⟩
        refine ⟨n :: out, ?_⟩
        rw [topoAux, if_neg hre, hpick]
        show Option.map (fun x => n :: x) (topoAux edges fuel (remaining.erase n)) =
          some (n :: out)
        rw [hout]
        rfl

/-- A successful sort is a permutation of the remaining nodes. -/
theorem topoAux_perm {edges : List (String × String)} :
    ∀ (fuel : Nat) (remaining out : List String),
      topoAux edges fuel remaining = some out → out.Perm remaining := by
  intro fuel
  induction fuel with
  | zero =>
    intro remaining out h
    rw [topoAux] at h
    split at h
    · rename_i hre
      rw [List.isEmpty_iff] at hre
      subst hre
      simp only [Option.some.injEq] at h
      subst h
      exact List.Perm.refl []
    · cases h
  | succ fuel ih =>
    intro remaining out h
    rw [topoAux] at h
    split at h
    · rename_i hre
      rw [List.isEmpty_iff] at hre
      subst hre
      simp only [Option.some.injEq] at h
      subst h
      exact List.Perm.refl []
    · split at h
      · cases h
      · rename_i n hpick
        rcases hrec : topoAux edges fuel (remaining.erase n) with - | out' <;>
          rw [hrec] at h
        · cases h
        · simp only [Option.map_some', Option.some.injEq] at h
          subst h
          exact ((ih _ _ hrec).cons n).trans (List.perm_cons_erase (pickReady_mem hpick)).symm

theorem posIn_cons_self (a : String) (xs : List String) : posIn a (a :: xs) = 0 := by
  simp [posIn]

theorem posIn_cons_ne {x a : String} (h : x ≠ a) (xs : List String) :
    posIn a (x :: xs) = posIn a xs + 1 := by
  simp [posIn, h]

/-- A successful sort places every target of an edge strictly before its
source. -/
theorem topoAux_order {edges : List (String × String)} :
    ∀ (fuel : Nat) (remaining out : List String),
      topoAux edges fuel remaining = some out →
      ∀ a b : String, (a, b) ∈ edges → a ∈ remaining → b ∈ remaining →
        posIn b out < posIn a out := by
  intro fuel
  induction fuel with
  | zero =>
    intro remaining out h a b hab ha hb
    rw [topoAux] at h
    split at h
    · rename_i hre
      rw [List.isEmpty_iff] at hre
      subst hre
      cases ha
    · cases h
  | succ fuel ih =>
    intro remaining out h a b hab ha hb
    rw [topoAux] at h
    split at h
    · rename_i hre
      rw [List.isEmpty_iff] at hre
      subst hre
      cases ha
    · split at h
      · cases h
      · rename_i n hpick
        rcases hrec : topoAux edges fuel (remaining.erase n) with - | out' <;>
          rw [hrec] at h
        · cases h
        · simp only [Option.map_some', Option.some.injEq] at h
          subst h
          have han : a ≠ n := by
            rintro rfl
            exact pickReady_prop hpick a b hab rfl hb
          have ha' : a ∈ remaining.erase n := (List.mem_erase_of_ne han).mpr ha
          by_cases hbn : b = n
          · subst hbn
            rw [posIn_cons_self, posIn_cons_ne (fun h => han h.symm)]
            omega
          · have hb' : b ∈ remaining.erase n := (List.mem_erase_of_ne hbn).mpr hb
            have := ih _ _ hrec a b hab ha' hb'
            rw [posIn_cons_ne (fun h => han h.symm), posIn_cons_ne (fun h => hbn h.symm)]
            omega

/-- Along a chain of graph edges, a successful sort's positions strictly
decrease. -/
theorem posIn_lt_of_chain {ms : List OdooModule} {order : List String}
    (h : topoSort (graphNodes ms) (graphEdges ms) = some order) :
    ∀ (l : List String) (x y : String),
      List.Chain (Edge (graphEdges ms)) x (l ++ [y]) →
      posIn y order < posIn x order := by
  have hord : ∀ a b : String, (a, b) ∈ graphEdges ms →
      posIn b order < posIn a order := fun a b hab =>
    topoAux_order _ _ _ h a b hab (graphEdges_mem_nodes hab).1 (graphEdges_mem_nodes hab).2
  intro l
  induction l with
  | nil =>
    intro x y hch
    rw [List.nil_append, List.chain_singleton] at hch
    exact hord x y (edge_iff.mp hch)
  | cons c cs ih =>
    intro x y hch
    rw [List.cons_append, List.chain_cons] at hch
    exact (ih c y hch.2).trans (hord x c (edge_iff.mp hch.1))

/-- If the sort of a built graph succeeds, that graph is acyclic. -/
theorem topoSort_acyclic {ms : List OdooModule} {order : List String}
    (h : topoSort (graphNodes ms) (graphEdges ms) = some order) :
    Acyclic (graphEdges ms) := by
  rintro ⟨a, l, hch⟩
  exact Nat.lt_irrefl _ (posIn_lt_of_chain h l a a hch)

/-- A cyclic built graph makes the sort fail. -/
theorem topoSort_none_of_cycle {ms : List OdooModule}
    (hcyc : HasCycle (graphEdges ms)) :
    topoSort (graphNodes ms) (graphEdges ms) = none := by
  rcases h : topoSort (graphNodes ms) (graphEdges ms) with - | order
  · rfl
  · exact absurd hcyc (topoSort_acyclic h)

/-- On an acyclic built graph the full install order is the successful
sort. -/
theorem install_order_eq_of_acyclic {ms : List OdooModule}
    (hacyc : Acyclic (graphEdges ms)) :
    ∃ order, topoSort (graphNodes ms) (graphEdges ms) = some order ∧
      get_install_order ms none = order := by
  rcases topoAux_success hacyc (graphNodes ms).length (graphNodes ms) (Nat.le_refl _)
    with ⟨order, h⟩
  refine ⟨order, h, ?_⟩
  rw [get_install_order, topoSort] at *
  rw [h]

/-! ## Claim theorems -/

/-- C1.  Graph completeness invariant: for every module `M` in the scanned
mapping and every declared dependency `D`, the built graph contains a node
for `D` — a scanned-module node or an external placeholder — and the edge
`M → D`; moreover every edge endpoint is a node of the graph, so the graph
is closed under following outgoing edges. -/
theorem graph_completeness_invariant (ms : List OdooModule) (m : OdooModule)
    (d : String) (hm : m ∈ ms) (hd : d ∈ m.depends) :
    d ∈ graphNodes ms ∧ (m.name, d) ∈ graphEdges ms ∧
    (d ∈ scannedNames ms ∨ d ∈ externalNodes ms) ∧
    (∀ e ∈ graphEdges ms, e.1 ∈ graphNodes ms ∧ e.2 ∈ graphNodes ms) := by
  have hnode : d ∈ graphNodes ms := mem_graphNodes.mpr (Or.inr ⟨m, hm, hd⟩)
  refine ⟨hnode, mem_graphEdges.mpr ⟨m, hm, rfl, hd⟩, ?_, ?_⟩
  · by_cases hs : d ∈ scannedNames ms
    · exact Or.inl hs
    · refine Or.inr (List.mem_filter.mpr ⟨hnode, ?_⟩)
      simp only [Bool.not_eq_true', ← Bool.not_eq_true]
      intro hc
      rw [List.contains_iff_exists_mem_beq] at hc
      rcases hc with ⟨y, hy, hbeq⟩
      rw [beq_iff_eq] at hbeq
      exact hs (hbeq ▸ hy)
  · intro e he
    rcases e with ⟨a, b⟩
    exact graphEdges_mem_nodes he

/-- Witness for C1 at a concrete module mapping. -/
theorem graph_completeness_invariant_witness :
    ({ name := "A", depends := ["B"] } : OdooModule) ∈ chainMs ∧
    "B" ∈ graphNodes chainMs ∧ ("A", "B") ∈ graphEdges chainMs :=
  have h := graph_completeness_invariant chainMs { name := "A", depends := ["B"] } "B"
    (by decide) (by decide)
  ⟨by decide, h.1, h.2.1⟩

/-- C2.  Topological correctness of the install order: on an acyclic
dependency graph, `get_install_order` (with no subset) returns a
permutation of all graph nodes — scanned and external — in which the
target of every dependency edge `A → B` appears strictly before its
source. -/
theorem install_order_topological (ms : List OdooModule)
    (hacyc : Acyclic (graphEdges ms)) :
    (get_install_order ms none).Perm (graphNodes ms) ∧
    ∀ a b : String, (a, b) ∈ graphEdges ms →
      posIn b (get_install_order ms none) < posIn a (get_install_order ms none) := by
  rcases install_order_eq_of_acyclic hacyc with ⟨order, hsort, hio⟩
  rw [hio]
  rw [topoSort] at hsort
  refine ⟨topoAux_perm _ _ _ hsort, fun a b hab => ?_⟩
  exact topoAux_order _ _ _ hsort a b hab (graphEdges_mem_nodes hab).1
    (graphEdges_mem_nodes hab).2

/-- Witness for C2 at a concrete acyclic mapping. -/
theorem install_order_topological_witness :
    Acyclic (graphEdges chainMs) ∧ (get_install_order chainMs none).Perm (graphNodes chainMs) :=
  have hacyc : Acyclic (graphEdges chainMs) :=
    @topoSort_acyclic chainMs ["C", "B", "A"] (by decide)
  ⟨hacyc, (install_order_topological chainMs hacyc).1⟩

/-- C3.  Cycle round-trip and soft failure: on the three-module cycle
`A → B → C → A`, `find_circular_dependencies` returns exactly one
elementary cycle, whose node set is `{A, B, C}`; and on any module mapping
whose graph contains a cycle, `get_install_order` returns the empty list
instead of raising. -/
theorem cycle_roundtrip_and_soft_failure :
    find_circular_dependencies cycMs = [["A", "B", "C"]] ∧
    ∀ ms : List OdooModule, HasCycle (graphEdges ms) → get_install_order ms none = [] := by
  constructor
  · decide
  · intro ms hcyc
    rw [get_install_order, topoSort_none_of_cycle hcyc]

/-- Witness for C3's universal part at the concrete cyclic mapping. -/
theorem cycle_roundtrip_and_soft_failure_witness :
    HasCycle (graphEdges cycMs) ∧ get_install_order cycMs none = [] :=
  have hcyc : HasCycle (graphEdges cycMs) :=
    ⟨"A", ["B", "C"],
      List.Chain.cons (by decide)
        (List.Chain.cons (by decide) (List.Chain.cons (by decide) List.Chain.nil))⟩
  ⟨hcyc, cycle_roundtrip_and_soft_failure.2 cycMs hcyc⟩


/-- C4 counterexample: in the mapping where `Y` depends on `X` and `Z`
depends on `Y`, the modules with an immediate reverse edge to `X` are
exactly `[Y]`, yet `assess_upgrade_impact` reports
`direct_dependents = [Y, Z]` — the transitive ancestor set, not one hop. -/
theorem impact_direct_dependents_counterexample :
    (assess_upgrade_impact revChainMs noModels "X").direct_dependents = ["Y", "Z"] ∧
    (revChainMs.filter (fun m => m.depends.contains "X")).map (·.name) = ["Y"] := by
  constructor
  · decide
  · decide

theorem mem_revdeps_simplified {ms : List OdooModule} {name x : String}
    (hname : name ∈ graphNodes ms) :
    x ∈ get_reverse_dependencies ms name ↔
      x ≠ name ∧ Reaches (graphEdges ms) x name := by
  rw [mem_get_reverse_dependencies]
  constructor
  · rintro ⟨-, -, h3, h4⟩
    exact ⟨h3, h4⟩
  · rintro ⟨h3, h4⟩
    refine ⟨hname, ?_, h3, h4⟩
    rcases h4 with ⟨l, hch⟩
    exact chain_head_mem (by simp) hch

theorem mem_foldl_insertNew (f : String → List String) (m : String) :
    ∀ (l acc : List String),
      m ∈ l.foldl (fun acc x => insertNew (insertNew acc [x]) (f x)) acc ↔
        m ∈ acc ∨ ∃ x ∈ l, m = x ∨ m ∈ f x := by
  intro l
  induction l with
  | nil => simp
  | cons s ss ih =>
    intro acc
    rw [List.foldl_cons, ih, mem_insertNew, mem_insertNew]
    simp only [List.mem_cons, List.not_mem_nil, or_false, List.mem_singleton]
    constructor
    · rintro (((h | h) | h) | ⟨x, hx, h⟩)
      · exact Or.inl h
      · exact Or.inr ⟨s, Or.inl rfl, Or.inl h⟩
      · exact Or.inr ⟨s, Or.inl rfl, Or.inr h⟩
      · exact Or.inr ⟨x, Or.inr hx, h⟩
    · rintro (h | ⟨x, (rfl | hx), h⟩)
      · exact Or.inl (Or.inl (Or.inl h))
      · rcases h with h | h
        · exact Or.inl (Or.inl (Or.inr h))
        · exact Or.inl (Or.inr h)
      · exact Or.inr ⟨x, hx, h⟩

theorem scanned_contains {ms : List OdooModule} {name : String}
    (hname : name ∈ scannedNames ms) : (scannedNames ms).contains name = true := by
  rw [List.contains_iff_exists_mem_beq]
  exact ⟨name, hname, by simp⟩

theorem assess_fields {ms : List OdooModule} {modelsOf : String → List String}
    {name : String} (hname : name ∈ scannedNames ms) :
    (assess_upgrade_impact ms modelsOf name).direct_dependents =
      sortStrings (get_reverse_dependencies ms name) ∧
    (assess_upgrade_impact ms modelsOf name).all_dependents =
      sortStrings ((sortStrings (get_reverse_dependencies ms name)).foldl
        (fun acc d => insertNew (insertNew acc [d]) (get_reverse_dependencies ms d)) []) := by
  rw [assess_upgrade_impact, scanned_contains hname]
  exact ⟨rfl, rfl⟩

/-- C4 amended: for a module present in the mapping,
`direct_dependents` is the FULL transitive dependent set — every node
other than the module itself with a directed path to it — and
`all_dependents` is the union of that set with each of its members' own
transitive dependent sets (one further expansion, as the code computes). -/
theorem impact_dependent_sets_amended (ms : List OdooModule)
    (modelsOf : String → List String) (name : String)
    (hname : name ∈ scannedNames ms) :
    (∀ x, x ∈ (assess_upgrade_impact ms modelsOf name).direct_dependents ↔
      (x ≠ name ∧ Reaches (graphEdges ms) x name)) ∧
    (∀ x, x ∈ (assess_upgrade_impact ms modelsOf name).all_dependents ↔
      ∃ d ∈ get_reverse_dependencies ms name,
        x = d ∨ x ∈ get_reverse_dependencies ms d) := by
  have hnode : name ∈ graphNodes ms :=
    mem_graphNodes.mpr (Or.inl hname)
  rcases @assess_fields ms modelsOf name hname with ⟨hdir, hall⟩
  constructor
  · intro x
    rw [hdir, mem_sortStrings, mem_revdeps_simplified hnode]
  · intro x
    rw [hall, mem_sortStrings, mem_foldl_insertNew]
    simp only [List.not_mem_nil, false_or, mem_sortStrings]

/-- Witness for the amended C4 at a concrete mapping. -/
theorem impact_dependent_sets_amended_witness :
    ("X" ∈ scannedNames revChainMs) ∧
    ("Z" ∈ (assess_upgrade_impact revChainMs noModels "X").direct_dependents ↔
      ("Z" ≠ "X" ∧ Reaches (graphEdges revChainMs) "Z" "X")) :=
  ⟨by decide,
    (impact_dependent_sets_amended revChainMs noModels "X" (by decide)).1 "Z"⟩

/-- C10 counterexample: on the cyclic mapping `A → B → A`, the claimed
set-equality fails: `all_dependents` of `A` is `[A, B]` while
`direct_dependents` is `[B]` — the module itself sneaks back in through
its dependents' ancestor sets, so the two lists differ as sets. -/
theorem all_dependents_counterexample :
    (assess_upgrade_impact cyc2Ms noModels "A").all_dependents = ["A", "B"] ∧
    (assess_upgrade_impact cyc2Ms noModels "A").direct_dependents = ["B"] := by
  constructor
  · decide
  · decide

/-- C10 amended: on an ACYCLIC dependency graph, for a module present in
the mapping, `all_dependents` equals `direct_dependents` as a set, and
both are the full transitive-dependent set, because the ancestor relation
is transitive — on cyclic graphs the equality fails (the module itself can
reappear), see the counterexample. -/
theorem all_dependents_equal_transitive (ms : List OdooModule)
    (modelsOf : String → List String) (name : String)
    (hname : name ∈ scannedNames ms) (hacyc : Acyclic (graphEdges ms)) :
    (∀ x, x ∈ (assess_upgrade_impact ms modelsOf name).all_dependents ↔
      x ∈ (assess_upgrade_impact ms modelsOf name).direct_dependents) ∧
    (∀ x, x ∈ (assess_upgrade_impact ms modelsOf name).direct_dependents ↔
      (x ≠ name ∧ Reaches (graphEdges ms) x name)) := by
  have hnode : name ∈ graphNodes ms := mem_graphNodes.mpr (Or.inl hname)
  rcases @assess_fields ms modelsOf name hname with ⟨hdirveq, hallveq⟩
  have hdirchar : ∀ x, x ∈ (assess_upgrade_impact ms modelsOf name).direct_dependents ↔
      (x ≠ name ∧ Reaches (graphEdges ms) x name) := by
    intro x
    rw [hdirveq, mem_sortStrings, mem_revdeps_simplified hnode]
  have hallchar : ∀ x, x ∈ (assess_upgrade_impact ms modelsOf name).all_dependents ↔
      ∃ d ∈ get_reverse_dependencies ms name,
        x = d ∨ x ∈ get_reverse_dependencies ms d := by
    intro x
    rw [hallveq, mem_sortStrings, mem_foldl_insertNew]
    simp only [List.not_mem_nil, false_or, mem_sortStrings]
  refine ⟨fun x => ?_, hdirchar⟩
  rw [hallchar, hdirchar]
  constructor
  · rintro ⟨d, hd, hxd⟩
    have h1 := (mem_revdeps_simplified hnode).mp hd
    rcases hxd with rfl | hx
    · exact h1
    · have hdnode : d ∈ graphNodes ms := by
        rcases h1.2 with ⟨l, hch⟩
        exact chain_head_mem (by simp) hch
      have h2 := (mem_revdeps_simplified hdnode).mp hx
      refine ⟨?_, reaches_trans h2.2 h1.2⟩
      rintro rfl
      rcases reaches_trans h2.2 h1.2 with ⟨l, hch⟩
      exact hacyc ⟨x, l, hch⟩
  · intro hx
    exact ⟨x, (mem_revdeps_simplified hnode).mpr hx, Or.inl rfl⟩

/-- Witness for the amended C10 at a concrete acyclic mapping. -/
theorem all_dependents_equal_transitive_witness :
    ("X" ∈ scannedNames revChainMs) ∧ Acyclic (graphEdges revChainMs) ∧
    ("Z" ∈ (assess_upgrade_impact revChainMs noModels "X").all_dependents ↔
      "Z" ∈ (assess_upgrade_impact revChainMs noModels "X").direct_dependents) :=
  have hacyc : Acyclic (graphEdges revChainMs) :=
    @topoSort_acyclic revChainMs ["X", "Y", "Z"] (by decide)
  ⟨by decide, hacyc,
    (all_dependents_equal_transitive revChainMs noModels "X" (by decide) hacyc).1 "Z"⟩


theorem contains_iff {α : Type} [BEq α] [LawfulBEq α] (l : List α) (a : α) :
    l.contains a = true ↔ a ∈ l := by
  simp

theorem computeRisk_critical {name : String} {dc mc : Nat}
    (h : dc > 50 ∨ name ∈ CORE_MODULES) : (computeRisk name dc mc).1 = "critical" := by
  have hcond : (decide (dc > 50) || CORE_MODULES.contains name) = true := by
    rcases h with h | h
    · rw [decide_eq_true h, Bool.true_or]
    · rw [(contains_iff CORE_MODULES name).mpr h, Bool.or_true]
  rw [computeRisk]
  simp only [hcond]
  split <;> simp

theorem computeRisk_not_critical_cond {name : String} {dc : Nat}
    (h : ¬(dc > 50 ∨ name ∈ CORE_MODULES)) :
    (decide (dc > 50) || CORE_MODULES.contains name) = false := by
  push_neg at h
  have h2 : CORE_MODULES.contains name = false := by
    cases hb : CORE_MODULES.contains name
    · rfl
    · exact absurd ((contains_iff _ _).mp hb) h.2
  rw [h2, Bool.or_false, decide_eq_false (Nat.not_lt.mpr h.1)]

theorem computeRisk_high {name : String} {dc mc : Nat}
    (h1 : ¬(dc > 50 ∨ name ∈ CORE_MODULES)) (h2 : dc > 20) :
    (computeRisk name dc mc).1 = "high" := by
  rw [computeRisk]
  simp only [computeRisk_not_critical_cond h1, Bool.false_eq_true, if_false, if_pos h2]
  split <;> simp

theorem computeRisk_medium {name : String} {dc mc : Nat}
    (h1 : ¬(dc > 50 ∨ name ∈ CORE_MODULES)) (h2 : ¬(dc > 20)) (h3 : dc > 5) :
    (computeRisk name dc mc).1 = "medium" := by
  rw [computeRisk]
  simp only [computeRisk_not_critical_cond h1, Bool.false_eq_true, if_false,
    if_neg h2, if_pos h3]
  split <;> simp

theorem computeRisk_low_escalated {name : String} {dc mc : Nat}
    (h1 : ¬(dc > 50 ∨ name ∈ CORE_MODULES)) (h2 : ¬(dc > 20)) (h3 : ¬(dc > 5))
    (h4 : mc > 10) : (computeRisk name dc mc).1 = "medium" := by
  rw [computeRisk]
  simp only [computeRisk_not_critical_cond h1, Bool.false_eq_true, if_false,
    if_neg h2, if_neg h3, if_pos h4]
  simp

theorem computeRisk_low {name : String} {dc mc : Nat}
    (h1 : ¬(dc > 50 ∨ name ∈ CORE_MODULES)) (h2 : ¬(dc > 20)) (h3 : ¬(dc > 5))
    (h4 : ¬(mc > 10)) : (computeRisk name dc mc).1 = "low" := by
  rw [computeRisk]
  simp only [computeRisk_not_critical_cond h1, Bool.false_eq_true, if_false,
    if_neg h2, if_neg h3, if_neg h4]

/-- For a present module, the assigned risk tier is the threshold
computation applied to the reported dependent and model counts. -/
theorem assess_risk_level_eq {ms : List OdooModule}
    {modelsOf : String → List String} {name : String}
    (hname : name ∈ scannedNames ms) :
    (assess_upgrade_impact ms modelsOf name).risk_level =
      (computeRisk name (assess_upgrade_impact ms modelsOf name).all_dependents.length
        (assess_upgrade_impact ms modelsOf name).affected_models.length).1 := by
  rw [assess_upgrade_impact, scanned_contains hname]
  rfl

/-- C5.  Risk tier assignment: `critical` when the dependent count exceeds
50 or the module is in the hardcoded core set; `high` when it exceeds 20;
`medium` when it exceeds 5; otherwise `low`, escalated to `medium` when
the module defines more than 10 entities (higher tiers are never
de-escalated); a module name absent from the mapping immediately yields
`critical` with the "module not found" risk factor and empty
dependent/model lists. -/
theorem risk_tier_assignment (ms : List OdooModule)
    (modelsOf : String → List String) (name : String) :
    (name ∉ scannedNames ms →
      riskLevel ms modelsOf name = "critical" ∧
      notFoundFactor name ∈ (assess_upgrade_impact ms modelsOf name).risk_factors ∧
      (assess_upgrade_impact ms modelsOf name).direct_dependents = [] ∧
      (assess_upgrade_impact ms modelsOf name).all_dependents = [] ∧
      (assess_upgrade_impact ms modelsOf name).affected_models = []) ∧
    (name ∈ scannedNames ms →
      (dependentCount ms modelsOf name > 50 ∨ name ∈ CORE_MODULES →
        riskLevel ms modelsOf name = "critical") ∧
      (¬(dependentCount ms modelsOf name > 50 ∨ name ∈ CORE_MODULES) →
        dependentCount ms modelsOf name > 20 →
        riskLevel ms modelsOf name = "high") ∧
      (¬(dependentCount ms modelsOf name > 50 ∨ name ∈ CORE_MODULES) →
        ¬(dependentCount ms modelsOf name > 20) →
        dependentCount ms modelsOf name > 5 →
        riskLevel ms modelsOf name = "medium") ∧
      (¬(dependentCount ms modelsOf name > 50 ∨ name ∈ CORE_MODULES) →
        ¬(dependentCount ms modelsOf name > 20) →
        ¬(dependentCount ms modelsOf name > 5) →
        modelCount ms modelsOf name > 10 →
        riskLevel ms modelsOf name = "medium") ∧
      (¬(dependentCount ms modelsOf name > 50 ∨ name ∈ CORE_MODULES) →
        ¬(dependentCount ms modelsOf name > 20) →
        ¬(dependentCount ms modelsOf name > 5) →
        ¬(modelCount ms modelsOf name > 10) →
        riskLevel ms modelsOf name = "low")) := by
  constructor
  · intro hname
    have hnc : (scannedNames ms).contains name = false := by
      cases hb : (scannedNames ms).contains name
      · rfl
      · exact absurd ((contains_iff _ _).mp hb) hname
    rw [riskLevel, assess_upgrade_impact, hnc]
    exact ⟨rfl, by simp, rfl, rfl, rfl⟩
  · intro hname
    rw [riskLevel, dependentCount, modelCount] at *
    rw [assess_risk_level_eq hname]
    refine ⟨fun h1 => computeRisk_critical h1,
      fun h1 h2 => computeRisk_high h1 h2,
      fun h1 h2 h3 => computeRisk_medium h1 h2 h3,
      fun h1 h2 h3 h4 => computeRisk_low_escalated h1 h2 h3 h4,
      fun h1 h2 h3 h4 => computeRisk_low h1 h2 h3 h4⟩

/-- Witness for C5: a one-module mapping whose sole module gets `low`, and
an absent module name that gets `critical`. -/
theorem risk_tier_assignment_witness :
    ("C" ∈ scannedNames chainMs) ∧
    ¬(dependentCount chainMs noModels "C" > 50 ∨ "C" ∈ CORE_MODULES) ∧
    riskLevel chainMs noModels "C" = "low" ∧
    ("missing" ∉ scannedNames chainMs) ∧
    riskLevel chainMs noModels "missing" = "critical" :=
  have h2 := (risk_tier_assignment chainMs noModels "C").2 (by decide)
  have h1 := (risk_tier_assignment chainMs noModels "missing").1 (by decide)
  ⟨by decide, by decide,
    h2.2.2.2.2 (by decide) (by decide) (by decide) (by decide),
    by decide, h1.1⟩

/-- C6.  Install-order subset filter: with a non-empty subset on an
acyclic graph, the result is exactly the full install order filtered down
to the subset's transitive dependency closure — the named modules plus
everything each of them transitively depends on — in the full order's
relative sequence. -/
theorem install_order_subset_filter (ms : List OdooModule) (subset : List String)
    (hne : subset ≠ []) (hacyc : Acyclic (graphEdges ms)) :
    get_install_order ms (some subset) =
      (get_install_order ms none).filter (fun m => requiredB ms subset m) ∧
    ∀ m : String, requiredB ms subset m = true ↔
      (m ∈ subset ∨ ∃ s ∈ subset, m ≠ s ∧ Reaches (graphEdges ms) s m) := by
  constructor
  · rcases install_order_eq_of_acyclic hacyc with ⟨order, hsort, hio⟩
    rw [hio, get_install_order, hsort]
    have hne2 : subset.isEmpty = false := by
      cases subset
      · exact absurd rfl hne
      · rfl
    simp [hne2]
  · intro m
    rw [requiredB, contains_iff, requiredSet, mem_foldl_insertNew]
    simp only [List.not_mem_nil, false_or]
    constructor
    · rintro ⟨x, hx, (rfl | hm)⟩
      · exact Or.inl hx
      · rcases mem_get_all_dependencies.mp hm with ⟨-, hmx, hr⟩
        exact Or.inr ⟨x, hx, hmx, hr⟩
    · rintro (hm | ⟨s, hs, hne', hr⟩)
      · exact ⟨m, hm, Or.inl rfl⟩
      · refine ⟨s, hs, Or.inr (mem_get_all_dependencies.mpr ⟨?_, hne', hr⟩)⟩
        rcases hr with ⟨l, hch⟩
        exact chain_head_mem (by simp) hch

/-- Witness for C6: subset `[A]` over the chain `A → B → C` yields the
full order `[C, B, A]`. -/
theorem install_order_subset_filter_witness :
    (["A"] : List String) ≠ [] ∧ Acyclic (graphEdges chainMs) ∧
    get_install_order chainMs (some ["A"]) = ["C", "B", "A"] :=
  have hacyc : Acyclic (graphEdges chainMs) :=
    @topoSort_acyclic chainMs ["C", "B", "A"] (by decide)
  have h := (install_order_subset_filter chainMs ["A"] (by decide) hacyc).1
  ⟨by decide, hacyc, by rw [h]; decide⟩

/-- C7 (code bug): a class containing only a recognized field assignment —
`partner_ref = fields.Char()` — and no `_name` or `_inherit` is NOT
recognized as an entity: `_parse_class` returns `None`, although the field
assignment itself is recognized and collected.  The branch of the source
that would set `is_odoo_model` for field assignments is an `elif` whose
condition repeats the preceding `if isinstance(item, ast.Assign)`, so it
is unreachable. -/
theorem field_only_class_not_recognized :
    parseClass fieldOnlyClass "custom_module" "models/partner.py" = none ∧
    isFieldDefinition (.call (.attrF "fields" "Char") [] []) = true := by
  constructor
  · rfl
  · rfl

/-- C8 counterexample: querying transitive dependencies on a fresh
analyzer (no scan performed, no graph built) does not raise — it silently
builds an empty graph and returns `ok []`. -/
theorem query_before_scan_counterexample :
    AnalyzerState.allDependenciesE { modules := [], graph := none } "sale" true =
      Except.ok [] := by
  rfl

/-- C8 amended: `compare_versions` before both sides are loaded raises a
`ValueError` to the caller, but querying the analyzer before any scan is
a silent empty result rather than an explicit failure: the query
auto-builds an empty graph and answers `ok []` for every module name. -/
theorem caller_misuse_amended :
    (∀ st : UpgradeAnalyzerState,
      st.source_analyzer = none ∨ st.target_analyzer = none →
      compare_versions st = Except.error loadErrorMessage) ∧
    (∀ (name : String) (include_core : Bool),
      AnalyzerState.allDependenciesE { modules := [], graph := none } name include_core =
        Except.ok []) := by
  constructor
  · intro st h
    rcases st with ⟨s, t⟩
    cases s with
    | none => rfl
    | some sms =>
      cases t with
      | none => rfl
      | some tms =>
        exfalso
        rcases h with h | h <;> exact Option.noConfusion h
  · intro name include_core
    rfl

/-- Witness for the amended C8: a fresh upgrade analyzer has no loaded
source, and comparing raises the load error. -/
theorem caller_misuse_amended_witness :
    (({ } : UpgradeAnalyzerState).source_analyzer = none ∨
      ({ } : UpgradeAnalyzerState).target_analyzer = none) ∧
    compare_versions { } = Except.error loadErrorMessage :=
  ⟨Or.inl rfl, caller_misuse_amended.1 { } (Or.inl rfl)⟩

/-- C9 counterexample: scanning a root whose non-module subdirectory
contains a dot-named module directory (`root/sub/.hidden`) DOES parse that
dot directory as a module — the dot filter is applied only at the first
level, not at the second. -/
theorem dot_directory_level2_counterexample :
    (scanDirectory pcAll dotTree []).map (·.name) = [".hidden"] := by
  rfl

theorem childExists_cons (c : FSTree) (l : List FSTree) (nm : String) :
    childExists (c :: l) nm = (c.entryName == nm || childExists l nm) := rfl

theorem fileContent_cons_dir (n : String) (ch : List FSTree) (l : List FSTree)
    (nm : String) : fileContent (.dir n ch :: l) nm = fileContent l nm := rfl

theorem fileContent_cons_file (n s : String) (l : List FSTree) (nm : String) :
    fileContent (.file n s :: l) nm =
      (if n == nm then some s else fileContent l nm) := by
  rw [fileContent, List.findSome?_cons]
  cases hb : n == nm
  · simp only [hb, Bool.false_eq_true, if_false]
    rfl
  · simp only [hb, if_pos rfl]
    rfl

theorem keepEntry_eq_false {c : FSTree} (h : keepEntry c = false) :
    ∃ n ch, c = FSTree.dir n ch ∧ startsWithDot n = true := by
  cases c with
  | file n s =>
    rw [keepEntry] at h
    cases h
  | dir n ch =>
    refine ⟨n, ch, rfl, ?_⟩
    rw [keepEntry] at h
    cases hb : startsWithDot n
    · rw [hb] at h
      cases h
    · rfl

theorem childExists_filter {children : List FSTree} {nm : String}
    (h : startsWithDot nm = false) :
    childExists (children.filter keepEntry) nm = childExists children nm := by
  induction children with
  | nil => rfl
  | cons c cs ih =>
    rw [List.filter_cons]
    by_cases hk : keepEntry c = true
    · rw [if_pos hk, childExists_cons, childExists_cons, ih]
    · rw [if_neg hk, ih, childExists_cons]
      rcases keepEntry_eq_false (Bool.not_eq_true _ ▸ hk) with ⟨n, ch, rfl, hd⟩
      have hne : (FSTree.entryName (.dir n ch) == nm) = false := by
        rw [FSTree.entryName]
        cases hb : n == nm
        · rfl
        · rw [beq_iff_eq] at hb
          rw [hb] at hd
          rw [hd] at h
          cases h
      rw [hne, Bool.false_or]

theorem fileContent_filter {children : List FSTree} {nm : String} :
    fileContent (children.filter keepEntry) nm = fileContent children nm := by
  induction children with
  | nil => rfl
  | cons c cs ih =>
    rw [List.filter_cons]
    by_cases hk : keepEntry c = true
    · cases c with
      | file n s => rw [if_pos hk, fileContent_cons_file, fileContent_cons_file, ih]
      | dir n ch => rw [if_pos hk, fileContent_cons_dir, fileContent_cons_dir, ih]
    · rw [if_neg hk, ih]
      rcases keepEntry_eq_false (Bool.not_eq_true _ ▸ hk) with ⟨n, ch, rfl, -⟩
      rw [fileContent_cons_dir]

theorem isOdooModuleDir_filter (name : String) (children : List FSTree) :
    isOdooModuleDir (.dir name (children.filter keepEntry)) =
      isOdooModuleDir (.dir name children) := by
  simp only [isOdooModuleDir]
  rw [childExists_filter (by rfl), childExists_filter (by rfl),
    childExists_filter (by rfl)]

theorem parseModuleDir_filter (pc : String → Option ManifestData) (name : String)
    (children : List FSTree) :
    parseModuleDir pc (.dir name (children.filter keepEntry)) =
      parseModuleDir pc (.dir name children) := by
  simp only [parseModuleDir]
  rw [childExists_filter (by rfl), childExists_filter (by rfl),
    fileContent_filter, fileContent_filter]

theorem foldl_keepEntry_invariant {β : Type} (f : β → FSTree → β)
    (hf : ∀ (b : β) (n : String) (ch : List FSTree),
      startsWithDot n = true → f b (.dir n ch) = b) :
    ∀ (children : List FSTree) (acc : β),
      (children.filter keepEntry).foldl f acc = children.foldl f acc := by
  intro children
  induction children with
  | nil => intro acc; rfl
  | cons c cs ih =>
    intro acc
    rw [List.filter_cons]
    by_cases hk : keepEntry c = true
    · rw [if_pos hk, List.foldl_cons, List.foldl_cons, ih]
    · rw [if_neg hk, ih, List.foldl_cons]
      rcases keepEntry_eq_false (Bool.not_eq_true _ ▸ hk) with ⟨n, ch, rfl, hd⟩
      rw [hf acc n ch hd]

/-- C9 amended: the dot filter holds at the FIRST level of the bounded
scan — dot-named directories there are never parsed nor descended into,
so removing them does not change the scan result — but the source applies
no dot filter at the second level (see the counterexample, where a
dot-named module directory two levels down is parsed). -/
theorem dot_directory_level1_skipped (pc : String → Option ManifestData)
    (name : String) (children : List FSTree) (acc : List OdooModule) :
    scanDirectory pc (.dir name children) acc =
      scanDirectory pc (.dir name (children.filter keepEntry)) acc := by
  rw [scanDirectory, scanDirectory, isOdooModuleDir_filter]
  by_cases hmod : isOdooModuleDir (.dir name children) = true
  · rw [if_pos hmod, if_pos hmod]
    show scanAdd pc (.dir name children) acc =
      scanAdd pc (.dir name (children.filter keepEntry)) acc
    rw [scanAdd, scanAdd, parseModuleDir_filter]
  · rw [if_neg hmod, if_neg hmod]
    show children.foldl (scanChild pc) acc =
      (children.filter keepEntry).foldl (scanChild pc) acc
    refine (foldl_keepEntry_invariant (scanChild pc) ?_ children acc).symm
    intro b n ch hd
    rw [scanChild, if_pos hd]
